import Mathlib

/-!
# Verification of the OpenCode Agent Skills plugin core (`src/plugin.ts`)

A shallow embedding, in Lean 4, of the skill discovery / resolution /
injection core of the plugin, together with theorems settling the frozen
claims C1–C10 about it.

Modelling conventions:
* Filesystem paths are lists of path components (`List String`); joining a
  directory with an entry name appends one component.  This models Node's
  `path.join`/`path.resolve` on normalized absolute paths.
* A directory listing is given to a function as data (the code's `fs.readdir`
  result), in the order the filesystem reports it.
* TypeScript string-literal union types (`SkillLabel`) are modelled as
  `String`, since the source compares them against user-supplied strings
  with `===`.
* `Map<string, SkillMetadata>` (insertion-ordered) is modelled as an
  association list `List (String × SkillMetadata)` to which `set` appends
  at the end when the key is absent; `values()` is `List.map Prod.snd`.
-/

/-- A discovered executable script (source: `interface Script`).
`path` is the absolute path, as components. -/
structure Script where
  name : String
  path : List String
deriving DecidableEq, Repr

/-- A validated skill record (source: `interface SkillMetadata`).
The optional frontmatter field `metadata.namespace` is called `nspace`
here because `namespace` is a Lean keyword. -/
structure SkillMetadata where
  name : String
  description : String
  path : List String
  relativePath : List String
  nspace : Option String
  label : String
  scripts : List Script
  content : String
deriving DecidableEq, Repr

/-- A directory entry as seen by `fs.readdir(dir, { withFileTypes: true })`
when only files matter: its name and whether any execute permission bit
(owner, group or other) is set — the source tests `stats.mode & 0o111`. -/
structure FileEntry where
  name : String
  executable : Bool
deriving DecidableEq, Repr

/-- Node `path.parse(name).name`: the file name without its extension.
The extension starts at the last `.` that is not the first character of the
name (so dotfiles like `.bashrc` keep their full name). -/
def stripExt (s : String) : String :=
  let cs := s.data
  match cs with
  | [] => ""
  | c₀ :: rest =>
    -- index (within `rest`) of the last '.' in `rest`, if any
    match (rest.reverse.findIdx? (· = '.')) with
    | none => s
    | some revIdx => ⟨c₀ :: rest.take (rest.length - 1 - revIdx)⟩

/-- The scripts contributed by one directory in `findScripts`: every entry
that is a file with an execute bit yields a `Script` named by the file name
without extension, with its full path. -/
def execScriptsOf (dir : List String) (files : List FileEntry) : List Script :=
  files.filterMap fun f =>
    if f.executable then some ⟨stripExt f.name, dir ++ [f.name]⟩ else none

/-- Source `findScripts`: scan the skill directory itself, then its
`scripts/` subdirectory (`none` if that directory does not exist), pushing
every executable file of each into one list, in that order. -/
def findScripts (skillPath : List String) (rootFiles : List FileEntry)
    (scriptsDirFiles : Option (List FileEntry)) : List Script :=
  execScriptsOf skillPath rootFiles ++
    match scriptsDirFiles with
    | some files => execScriptsOf (skillPath ++ ["scripts"]) files
    | none => []

/-- The script lookup performed by `run_skill_script.execute`:
`skill.scripts.find(s => s.name === script_name || s.name === path.parse(script_name).name)`. -/
def findScript (scripts : List Script) (wanted : String) : Option Script :=
  scripts.find? fun s => s.name == wanted || s.name == stripExt wanted

/-- One step of `discoverAllSkills`' registry construction:
`skillsByName.set(skill.name, skill)` guarded by
`if (skillsByName.get(skill.name)) continue` — insert only if the name is
not already a key; otherwise the duplicate is dropped silently. -/
def insertSkill (reg : List (String × SkillMetadata)) (s : SkillMetadata) :
    List (String × SkillMetadata) :=
  match reg.lookup s.name with
  | some _ => reg
  | none => reg ++ [(s.name, s)]

/-- Source `discoverAllSkills`, abstracted over the filesystem: the input is
the list of successfully parsed skills of each source, one list per source,
in the configured priority order (the four standard discovery paths, then
the plugin cache, then the marketplaces — the source's three sequential
loops are the fold over the concatenation).  `parseSkillFile` failures
(`null`) are already absent from the input lists. -/
def discoverAllSkills (rootsSkills : List (List SkillMetadata)) :
    List (String × SkillMetadata) :=
  rootsSkills.flatten.foldl insertSkill []

/-! ## Directory scanning (`findSkillsRecursive`) -/

/-- A directory tree as the scanner sees it: whether a `SKILL.md` manifest
file is directly present, and the subdirectories (name and subtree) in
`fs.readdir` order.  Non-directory entries are irrelevant to
`findSkillsRecursive`, which skips them (`if (!entry.isDirectory()) continue`). -/
inductive DirTree where
  | node (manifest : Bool) (children : List (String × DirTree))

/-- Whether the directory directly contains the manifest file (the source
stats `path.join(fullPath, "SKILL.md")`). -/
def DirTree.hasManifest : DirTree → Bool
  | .node m _ => m

/-- The subdirectories of a directory. -/
def DirTree.children : DirTree → List (String × DirTree)
  | .node _ cs => cs

/-- The inner loop of `findSkillsRecursive.recurse`, with the remaining
descent budget `r = maxDepth - depth` in place of the pair
(`maxDepth`, `depth`): for each subdirectory, if it directly contains a
manifest, record its relative path and do not descend; otherwise recurse
into it — which returns nothing when the budget is exhausted, exactly as
the source guard `if (depth > maxDepth) return` does at `depth + 1`. -/
def scanChildren (r : Nat) (rel : List String) (entries : List (String × DirTree)) :
    List (List String) :=
  match entries with
  | [] => []
  | (nm, sub) :: rest =>
    (if sub.hasManifest then [rel ++ [nm]]
     else
       match r with
       | 0 => []
       | r' + 1 => scanChildren r' (rel ++ [nm]) sub.children)
    ++ scanChildren r rel rest
termination_by (r, entries)

/-- Source `findSkillsRecursive.recurse(dir, depth, relPath)`. -/
def scanDir (maxDepth depth : Nat) (rel : List String) (t : DirTree) : List (List String) :=
  if maxDepth < depth then [] else scanChildren (maxDepth - depth) rel t.children

/-- Source `findSkillsRecursive`: `none` stands for a root on which
`fs.access` fails (non-existent or unreadable), which yields no results. -/
def findSkillsRecursive (root : Option DirTree) (maxDepth : Nat) : List (List String) :=
  match root with
  | none => []
  | some t => scanDir maxDepth 0 [] t

/-- Follow a relative path (list of directory names) down a tree. -/
def getAt : DirTree → List String → Option DirTree
  | t, [] => some t
  | t, nm :: rest =>
    match t.children.lookup nm with
    | some sub => getAt sub rest
    | none => none

/-- The manifest flag of the directory at a relative path, if it exists. -/
def manifestAtPath (t : DirTree) (p : List String) : Option Bool :=
  (getAt t p).map DirTree.hasManifest

/-- Well-formedness of a directory tree: sibling names are distinct at every
level, as on a real filesystem. -/
def wfChildren : List (String × DirTree) → Bool
  | [] => true
  | (nm, DirTree.node _ cs) :: rest =>
    !((rest.map Prod.fst).contains nm) && wfChildren cs && wfChildren rest

/-- The paths the scanner is specified to report: a reported skill is a
chain of directories from the scanned entries in which only the final
directory carries a manifest — descent stops at the first manifest. -/
inductive SkillAt : List (String × DirTree) → List String → Prop
  | here {entries : List (String × DirTree)} {nm : String} {sub : DirTree} :
      (nm, sub) ∈ entries → sub.hasManifest = true → SkillAt entries [nm]
  | deeper {entries : List (String × DirTree)} {nm : String} {sub : DirTree} {p : List String} :
      (nm, sub) ∈ entries → sub.hasManifest = false → SkillAt sub.children p →
      SkillAt entries (nm :: p)

/-- A concrete directory tree used to instantiate the scanner theorem:
`a/` carries a manifest and contains `a/b/` which also carries one;
`c/` has no manifest but `c/d/` does. -/
def demoTree : DirTree :=
  DirTree.node false
    [("a", DirTree.node true [("b", DirTree.node true [])]),
     ("c", DirTree.node false [("d", DirTree.node true [])])]

/-! ## Frontmatter schema (`SkillFrontmatterSchema`) -/

/-- Unicode general category Ll (lowercase letter) membership for the
Latin-1 range (code points below 0x100), per the Unicode character
database: `a`–`z`, micro sign 0xB5, 0xDF–0xF6 and 0xF8–0xFF.  The model
restricts the source regex class `\p{Ll}` to this range; theorems about it
are instantiated only on such characters. -/
def isLowercaseLetterLatin1 (c : Char) : Bool :=
  (0x61 ≤ c.toNat && c.toNat ≤ 0x7A) || c.toNat = 0xB5 ||
    (0xDF ≤ c.toNat && c.toNat ≤ 0xF6) || (0xF8 ≤ c.toNat && c.toNat ≤ 0xFF)

/-- Unicode general category N (number) membership for the Latin-1 range:
the ASCII digits plus the superscripts 0xB2, 0xB3, 0xB9 and the vulgar
fractions 0xBC–0xBE. -/
def isNumberLatin1 (c : Char) : Bool :=
  (0x30 ≤ c.toNat && c.toNat ≤ 0x39) || c.toNat = 0xB2 || c.toNat = 0xB3 ||
    c.toNat = 0xB9 || (0xBC ≤ c.toNat && c.toNat ≤ 0xBE)

/-- Membership in the character class of the source regex
`/^[\p{Ll}\p{N}-]+$/u` (restricted to Latin-1, see above). -/
def skillNameChar (c : Char) : Bool :=
  isLowercaseLetterLatin1 c || isNumberLatin1 c || c = '-'

/-- Whether the source regex `/^[\p{Ll}\p{N}-]+$/u` matches the whole
string: at least one character, all of them in the class. -/
def nameRegexMatches (s : String) : Bool :=
  !s.data.isEmpty && s.data.all skillNameChar

/-- The `name` acceptance of `SkillFrontmatterSchema`:
`z.string().regex(/^[\p{Ll}\p{N}-]+$/u).min(1)`. -/
def skillNameAccepted (s : String) : Bool :=
  nameRegexMatches s && 1 ≤ s.data.length

/-- Modelled from the spec: membership in the character class of
the pattern `^[a-z0-9-]+$` that the spec claims for `name` — ASCII
lowercase letters, ASCII digits and hyphens only.  Used to compare the
spec wording with the source schema. -/
def asciiSkillNameChar (c : Char) : Bool :=
  ('a' ≤ c && c ≤ 'z') || ('0' ≤ c && c ≤ '9') || c = '-'

/-- Modelled from the spec: whole-string match of `^[a-z0-9-]+$`. -/
def asciiNameRegexMatches (s : String) : Bool :=
  !s.data.isEmpty && s.data.all asciiSkillNameChar

/-! ## Resolution (`resolveSkill`) and path safety (`isPathSafe`) -/

/-- Split a character list at its first `:`.  `(before, some after)` when a
colon is present, `(whole, none)` otherwise.  This captures both the source
check `skillName.includes(":")` (the option is `some`) and the JavaScript
`skillName.split(":")` destructuring `[namespace, name]`: `namespace` is
the part before the first colon, `name` the part between the first and the
second colon (further parts are ignored by the source). -/
def breakAtColon : List Char → List Char × Option (List Char)
  | [] => ([], none)
  | c :: rest =>
    if c = ':' then ([], some rest)
    else
      let p := breakAtColon rest
      (c :: p.1, p.2)

/-- Source `resolveSkill`: with a `namespace:name` identifier, iterate the
registry values and return the first whose `name` equals the requested name
and whose `label` or declared `metadata.namespace` equals the requested
namespace; with a bare name, look the name up directly in the map. -/
def resolveSkill (skillName : String) (reg : List (String × SkillMetadata)) :
    Option SkillMetadata :=
  match breakAtColon skillName.data with
  | (nsChars, some rest) =>
    let nm : String := ⟨(breakAtColon rest).1⟩
    let ns : String := ⟨nsChars⟩
    (reg.map Prod.snd).find? fun s =>
      s.name == nm && (s.label == ns || s.nspace == some ns)
  | (_, none) => reg.lookup skillName

/-- A requested file path as handed to `read_skill_file`: possibly absolute,
with raw components that may include `..` and `.`. -/
structure ReqPath where
  absolute : Bool
  comps : List String
deriving DecidableEq, Repr

/-- One component step of Node `path.resolve`: `..` pops (staying at the
root when already there), `.` and empty components are dropped, anything
else is appended. -/
def resolveStep (acc : List String) (c : String) : List String :=
  if c = "." || c = "" then acc
  else if c = ".." then acc.dropLast
  else acc ++ [c]

/-- Node `path.resolve(basePath, requestedPath)` on component lists: an
absolute request ignores the base, a relative one starts from it. -/
def resolvePath (base : List String) (req : ReqPath) : List String :=
  req.comps.foldl resolveStep (if req.absolute then [] else base)

/-- Source `isPathSafe`: the resolved path must start with
`basePath + path.sep` or equal `basePath` — in component lists, `basePath`
is a prefix of the resolved path. -/
def isPathSafe (basePath : List String) (requestedPath : ReqPath) : Bool :=
  basePath.isPrefixOf (resolvePath basePath requestedPath)

/-- The control-flow outcome of `read_skill_file.execute` up to the first
filesystem access: the skill may be unknown, the path may be rejected as
unsafe — in both branches the source returns an error string without
touching the filesystem — or the execution proceeds to
`fs.readFile(path.join(skill.path, filename))`, the only branch that reads. -/
inductive ReadFileRoute where
  | skillNotFound
  | unsafePath
  | readAttempt (file : ReqPath)
deriving DecidableEq, Repr

/-- Source `read_skill_file.execute`, up to the first filesystem access. -/
def readSkillFileRoute (reg : List (String × SkillMetadata)) (skillName : String)
    (filename : ReqPath) : ReadFileRoute :=
  match resolveSkill skillName reg with
  | none => .skillNotFound
  | some skill =>
    if isPathSafe skill.path filename then .readAttempt filename else .unsafePath

/-! ## Search (`find_skills.execute`) -/

/-- ASCII lowercasing of one character, the effect of the regex `i` flag on
ASCII input. -/
def asciiLower (c : Char) : Char :=
  if 'A' ≤ c && c ≤ 'Z' then Char.ofNat (c.toNat + 32) else c

/-- Leftmost-substring containment of `needle` in the list. -/
def containsSub (needle : List Char) : List Char → Bool
  | [] => needle.isEmpty
  | c :: rest => needle.isPrefixOf (c :: rest) || containsSub needle rest

/-- The test `new RegExp(query.replace(/\*/g, ".*"), "i").test(s)` of
`find_skills.execute`, modelled for ASCII queries that contain no regex
metacharacter (in particular no `*`): for those the regex is a literal and
the test is case-insensitive substring containment. -/
def patternTest (query s : String) : Bool :=
  containsSub (query.data.map asciiLower) (s.data.map asciiLower)

/-- The per-skill line rendered by `find_skills.execute`:
`name (label)\n  description` plus a `[scripts: ...]` suffix when the skill
has scripts. -/
def renderSkillLine (s : SkillMetadata) : String :=
  s.name ++ " (" ++ s.label ++ ")\n  " ++ s.description ++
    (if s.scripts.isEmpty then ""
     else " [scripts: " ++ String.intercalate ", " (s.scripts.map Script.name) ++ "]")

/-- Source `find_skills.execute`: filter `allSkills` by matching the query
against each skill name and description (no other field); an empty query
string is falsy in JavaScript, so `if (args.query)` skips filtering for it.
An empty filtered list yields the fixed no-skills-found message. -/
def findSkillsExecute (allSkills : List SkillMetadata) (query : Option String) : String :=
  let filtered :=
    match query with
    | some q =>
      if q.data.isEmpty then allSkills
      else allSkills.filter fun s => patternTest q s.name || patternTest q s.description
    | none => allSkills
  if filtered.isEmpty then "No skills found matching your query."
  else String.intercalate "\n\n" (filtered.map renderSkillLine)

/-! ## Session injection (`chat.message` and `session.compacted` handlers) -/

/-- The result the handler sees from `client.session.messages({ limit: 1 })`:
either the number of pre-existing messages reported, or a thrown error
(`err`), on which the source proceeds with injection. -/
inductive HistoryQuery where
  | ok (count : Nat)
  | err
deriving DecidableEq, Repr

/-- How many synthetic skills-summary prompts one call of `injectSkillsList`
pushes: none when the registry is empty (`if (skills.length === 0) return`),
exactly one otherwise. -/
def summaryPushCount (skills : List SkillMetadata) : Nat :=
  if skills.isEmpty then 0 else 1

/-- The `chat.message` handler: given the in-memory `injectedSessions` set
(modelled as a list), the observed session id and the transport reply,
return the new set and how many skills-summary injections were pushed.
The superpowers bootstrap push is separate content and not counted here. -/
def chatMessageHandler (allSkills : List SkillMetadata) (injectedSessions : List String)
    (sessionID : String) (history : HistoryQuery) : List String × Nat :=
  if injectedSessions.contains sessionID then (injectedSessions, 0)
  else
    match history with
    | .ok n =>
      if 0 < n then (sessionID :: injectedSessions, 0)
      else (sessionID :: injectedSessions, summaryPushCount allSkills)
    | .err => (sessionID :: injectedSessions, summaryPushCount allSkills)

/-- The `event` handler on a `session.compacted` event for `sessionID`: it
consults neither `injectedSessions` (returned unchanged) nor any per-session
flag, and re-pushes the skills summary via `injectSkillsList`. -/
def compactedEventHandler (allSkills : List SkillMetadata) (injectedSessions : List String)
    (sessionID : String) : List String × Nat :=
  (injectedSessions, summaryPushCount allSkills)

/-! ## Frontmatter extraction (`parseSkillFile`) -/

/-- First occurrence split: `some (pre, post)` when the separator occurs in
the list, where `pre` is everything before the leftmost occurrence and
`post` everything after it; `none` when it does not occur (for a non-empty
separator). -/
def splitFirst (sep : List Char) : List Char → Option (List Char × List Char)
  | [] => none
  | c :: rest =>
    if sep.isPrefixOf (c :: rest) then some ([], (c :: rest).drop sep.length)
    else
      match splitFirst sep rest with
      | some (pre, post) => some (c :: pre, post)
      | none => none

/-- The frontmatter regex of `parseSkillFile`,
`/^---\n([\s\S]*?)\n---\n([\s\S]*)$/`: the content must start with the line
`---`; the lazy first group ends at the first later occurrence of the
closing delimiter `\n---\n`; the second group is the rest. -/
def extractFrontmatter (content : String) : Option (String × String) :=
  if ("---\n".data).isPrefixOf content.data then
    match splitFirst ("\n---\n".data) (content.data.drop 4) with
    | some (fm, body) => some (⟨fm⟩, ⟨body⟩)
    | none => none
  else none

/-- The frontmatter gate of `parseSkillFile`: the file-read result must be
truthy (`if (!content) return null`), the regex must match, and both
captured groups must be truthy — an empty frontmatter group or an empty
body group is rejected with `has no valid frontmatter` and the function
returns `null`.  `some (fm, body)` is the pair handed on to the YAML parse
and schema validation; `none` means `parseSkillFile` returns `null` at this
stage and the skill is omitted from the registry. -/
def parseSkillFileGate (content : String) : Option (String × String) :=
  if content.data.isEmpty then none
  else
    match extractFrontmatter content with
    | none => none
    | some (fm, body) =>
      if fm.data.isEmpty || body.data.isEmpty then none else some (fm, body)

/-! ## Test fixtures -/

/-- A concrete skill record used to instantiate theorems with hypotheses. -/
def demoSkill : SkillMetadata :=
  ⟨"demo", "a demo skill", ["home", "u", "skills", "demo"], ["demo"], none, "project", [], "body"⟩

/-- A concrete skill whose tier label matches a search query that matches
neither its name nor its description. -/
def demoTierSkill : SkillMetadata :=
  ⟨"pdf-tools", "work with documents", ["r", "pdf-tools"], ["pdf-tools"], none, "project", [], ""⟩

/-! ## C4: the name schema accepts more than ASCII -/

/-- Counterexample to C4: the schema regex is `/^[\p{Ll}\p{N}-]+$/u`, not
the ASCII `^[a-z0-9-]+$` the spec states.  The name `café` contains
U+00E9, a lowercase letter outside `[a-z0-9-]`, yet the schema accepts it,
so it is not rejected and the skill is not omitted for this reason. -/
theorem skillName_unicode_counterexample :
    skillNameAccepted "café" = true ∧ asciiNameRegexMatches "café" = false := by
  constructor
  · decide
  · decide

/-- C4 (amended): schema validation accepts the name exactly when it is
non-empty and every character is a Unicode lowercase letter, a Unicode
number, or a hyphen — the Unicode classes of the source regex, not the
ASCII-only set of the spec.  Stated for Latin-1 strings, the range on
which the model `skillNameChar` is defined. -/
theorem skillNameAccepted_characterization (s : String)
    (h : ∀ c ∈ s.data, c.toNat < 256) :
    skillNameAccepted s = true ↔ s.data ≠ [] ∧ ∀ c ∈ s.data, skillNameChar c = true := by
  unfold skillNameAccepted nameRegexMatches
  cases hd : s.data with
  | nil => simp [hd]
  | cons a l => simp [hd, List.all_eq_true, Nat.succ_le_succ]

/-- Witness for `skillNameAccepted_characterization` at `demo-1`. -/
theorem skillNameAccepted_characterization_witness :
    (∀ c ∈ ("demo-1" : String).data, c.toNat < 256)
    ∧ (skillNameAccepted "demo-1" = true
        ↔ ("demo-1" : String).data ≠ [] ∧ ∀ c ∈ ("demo-1" : String).data, skillNameChar c = true) :=
  ⟨by decide, skillNameAccepted_characterization "demo-1" (by decide)⟩

/-! ## C7: `find_skills` matches name and description, not the tier -/

/-- Counterexample to C7: the filter of `find_skills.execute` tests only
`s.name` and `s.description`; a query equal to the tier label of the only
skill returns the no-skills-found message even though the tier matches. -/
theorem find_skills_ignores_tier_counterexample :
    findSkillsExecute [demoTierSkill] (some "project") = "No skills found matching your query."
    ∧ patternTest "project" demoTierSkill.label = true := by
  constructor
  · decide
  · decide

/-- C7 (amended): `find_skills` filters by a case-insensitive match of the
query against each skill name and description only (the tier label is not
consulted); it returns exactly the matching skills, rendered, and the fixed
no-skills-found message when none matches. -/
theorem find_skills_filters_name_description (skills : List SkillMetadata) (q : String)
    (hq : q.data ≠ []) :
    (findSkillsExecute skills (some q) =
      if (skills.filter fun s => patternTest q s.name || patternTest q s.description).isEmpty
      then "No skills found matching your query."
      else String.intercalate "\n\n"
        ((skills.filter fun s => patternTest q s.name || patternTest q s.description).map
          renderSkillLine))
    ∧ ∀ s, s ∈ (skills.filter fun s => patternTest q s.name || patternTest q s.description)
        ↔ s ∈ skills ∧ (patternTest q s.name || patternTest q s.description) = true := by
  constructor
  · simp [findSkillsExecute, List.isEmpty_iff, hq]
  · intro s
    exact List.mem_filter

/-- Witness for `find_skills_filters_name_description` at query `demo`. -/
theorem find_skills_filters_name_description_witness :
    ("demo" : String).data ≠ []
    ∧ ((findSkillsExecute [demoSkill] (some "demo") =
      if ([demoSkill].filter fun s => patternTest "demo" s.name || patternTest "demo" s.description).isEmpty
      then "No skills found matching your query."
      else String.intercalate "\n\n"
        (([demoSkill].filter fun s => patternTest "demo" s.name || patternTest "demo" s.description).map
          renderSkillLine))
    ∧ ∀ s, s ∈ ([demoSkill].filter fun s => patternTest "demo" s.name || patternTest "demo" s.description)
        ↔ s ∈ [demoSkill] ∧ (patternTest "demo" s.name || patternTest "demo" s.description) = true) :=
  ⟨by decide, find_skills_filters_name_description [demoSkill] "demo" (by decide)⟩

/-! ## C8: first-touch injection -/

/-- Counterexample to C8: with an empty registry, a session observed for
the first time with zero prior messages is marked initialized but receives
zero skills-summary injections (`injectSkillsList` returns early), not
exactly one. -/
theorem chat_message_empty_registry_counterexample :
    chatMessageHandler [] [] "s1" (HistoryQuery.ok 0) = (["s1"], 0)
    ∧ (chatMessageHandler [] [] "s1" (HistoryQuery.ok 0)).2 ≠ 1 := by
  constructor
  · decide
  · decide

/-- C8 (amended): on the first observed message of a session, if the
transport reports zero pre-existing messages then exactly one
skills-summary injection is pushed provided the registry is non-empty (none
when it is empty), and the session is marked initialized; a session with
existing history is marked initialized with zero injections; an already
initialized session never receives another initial injection; and after any
observation the session is marked. -/
theorem chat_message_first_touch_protocol (skills : List SkillMetadata)
    (st : List String) (sid : String) :
    (st.contains sid = false → skills ≠ [] →
      chatMessageHandler skills st sid (HistoryQuery.ok 0) = (sid :: st, 1))
    ∧ (st.contains sid = false → skills = [] →
      chatMessageHandler skills st sid (HistoryQuery.ok 0) = (sid :: st, 0))
    ∧ (∀ n, st.contains sid = false → 0 < n →
      chatMessageHandler skills st sid (HistoryQuery.ok n) = (sid :: st, 0))
    ∧ (st.contains sid = true →
      ∀ h, chatMessageHandler skills st sid h = (st, 0))
    ∧ (∀ h, ((chatMessageHandler skills st sid h).1).contains sid = true) := by
  refine ⟨?_, ?_, ?_, ?_, ?_⟩
  · intro h1 h2
    have h1' : sid ∉ st := by simpa using h1
    simp [chatMessageHandler, h1', summaryPushCount, List.isEmpty_iff, h2]
  · intro h1 h2
    have h1' : sid ∉ st := by simpa using h1
    simp [chatMessageHandler, h1', summaryPushCount, h2]
  · intro n h1 h2
    have h1' : sid ∉ st := by simpa using h1
    simp [chatMessageHandler, h1', h2]
  · intro h1 h
    have h1' : sid ∈ st := by simpa using h1
    simp [chatMessageHandler, h1']
  · intro h
    by_cases hc : sid ∈ st
    · simp [chatMessageHandler, hc]
    · cases h with
      | ok n =>
        by_cases hn : 0 < n
        · simp [chatMessageHandler, hc, hn]
        · simp [chatMessageHandler, hc, hn]
      | err => simp [chatMessageHandler, hc]

/-- Witness for `chat_message_first_touch_protocol`: a fresh session with a
non-empty registry gets one injection; an initialized session gets none. -/
theorem chat_message_first_touch_protocol_witness :
    chatMessageHandler [demoSkill] [] "s1" (HistoryQuery.ok 0) = (["s1"], 1)
    ∧ chatMessageHandler [demoSkill] ["s1"] "s1" (HistoryQuery.ok 3) = (["s1"], 0) :=
  ⟨(chat_message_first_touch_protocol [demoSkill] [] "s1").1 (by decide) (by decide),
   ((chat_message_first_touch_protocol [demoSkill] ["s1"] "s1").2.2.2.1 (by decide))
     (HistoryQuery.ok 3)⟩

/-! ## C9: re-injection on compaction -/

/-- Counterexample to C9: with an empty registry a compaction event pushes
zero skills-summary re-injections, not exactly one — the claim is false
"regardless of the contents of the registry". -/
theorem compaction_empty_registry_counterexample :
    compactedEventHandler [] ["s1"] "s1" = (["s1"], 0)
    ∧ (compactedEventHandler [] ["s1"] "s1").2 ≠ 1 := by
  constructor
  · decide
  · decide

/-- C9 (amended): every compaction-notification event pushes exactly one
skills-summary re-injection provided the registry is non-empty, independent
of the per-session injection state and of how many injections happened
before (the handler never consults `injectedSessions`). -/
theorem compaction_always_reinjects (skills : List SkillMetadata)
    (st : List String) (sid : String) (h : skills ≠ []) :
    compactedEventHandler skills st sid = (st, 1) := by
  simp [compactedEventHandler, summaryPushCount, List.isEmpty_iff, h]

/-- Witness for `compaction_always_reinjects`. -/
theorem compaction_always_reinjects_witness :
    compactedEventHandler [demoSkill] ["s1", "s2"] "s1" = (["s1", "s2"], 1) :=
  compaction_always_reinjects [demoSkill] ["s1", "s2"] "s1" (by decide)

/-! ## C1: root script wins over the `scripts/` script of the same name -/

/-- Counterexample to C1: with executable `foo.sh` in the skill root and
executable `foo.py` in `scripts/`, both entries stay in the scripts list
under the name `foo` (the name is not unique), and `run_skill_script`
resolves `foo` to the root-directory entry, not the `scripts/` one. -/
theorem findScripts_duplicate_name_counterexample :
    findScripts ["sk"] [⟨"foo.sh", true⟩] (some [⟨"foo.py", true⟩])
      = [⟨"foo", ["sk", "foo.sh"]⟩, ⟨"foo", ["sk", "scripts", "foo.py"]⟩]
    ∧ findScript (findScripts ["sk"] [⟨"foo.sh", true⟩] (some [⟨"foo.py", true⟩])) "foo"
      = some ⟨"foo", ["sk", "foo.sh"]⟩
    ∧ ¬ ((findScripts ["sk"] [⟨"foo.sh", true⟩] (some [⟨"foo.py", true⟩])).map Script.name).Nodup := by
  refine ⟨by decide, by decide, by decide⟩

/-- C1 (amended): when a name is present in both the skill root directory
and its `scripts/` subdirectory, both script entries remain in the skill
scripts list (script names are not unique), and the entry that takes effect
when `run_skill_script` looks a name up is the first match — the one from
the root directory, scanned first. -/
theorem run_skill_script_first_found_wins (sp : List String)
    (rootFiles sdFiles : List FileEntry) (w : String) (s : Script)
    (hroot : findScript (execScriptsOf sp rootFiles) w = some s) :
    findScript (findScripts sp rootFiles (some sdFiles)) w = some s
    ∧ ∀ f ∈ rootFiles, ∀ g ∈ sdFiles, f.executable = true → g.executable = true →
        (⟨stripExt f.name, sp ++ [f.name]⟩ : Script)
            ∈ findScripts sp rootFiles (some sdFiles)
        ∧ (⟨stripExt g.name, (sp ++ ["scripts"]) ++ [g.name]⟩ : Script)
            ∈ findScripts sp rootFiles (some sdFiles) := by
  constructor
  · unfold findScripts findScript
    rw [List.find?_append]
    unfold findScript at hroot
    rw [hroot]
    rfl
  · intro f hf g hg hfe hge
    constructor
    · apply List.mem_append_left
      unfold execScriptsOf
      rw [List.mem_filterMap]
      exact ⟨f, hf, by simp [hfe]⟩
    · apply List.mem_append_right
      unfold execScriptsOf
      rw [List.mem_filterMap]
      exact ⟨g, hg, by simp [hge]⟩

/-- Witness for `run_skill_script_first_found_wins` at the duplicated name
`foo`. -/
theorem run_skill_script_first_found_wins_witness :
    findScript (findScripts ["sk"] [⟨"foo.sh", true⟩] (some [⟨"foo.py", true⟩])) "foo"
      = some ⟨"foo", ["sk", "foo.sh"]⟩ :=
  (run_skill_script_first_found_wins ["sk"] [⟨"foo.sh", true⟩] [⟨"foo.py", true⟩] "foo"
    ⟨"foo", ["sk", "foo.sh"]⟩ (by decide)).1

/-! ## C5: path-traversal rejection in `read_skill_file` -/

/-- C5: for every resolved skill and requested relative path, when the path
resolved against the skill directory escapes that directory,
`read_skill_file.execute` takes the rejecting branch — it returns the
invalid-path message and in particular never reaches the `readAttempt`
branch, the only one that performs a filesystem read. -/
theorem read_skill_file_rejects_traversal (reg : List (String × SkillMetadata))
    (skillName : String) (req : ReqPath) (skill : SkillMetadata)
    (hres : resolveSkill skillName reg = some skill)
    (hesc : ¬ skill.path <+: resolvePath skill.path req) :
    readSkillFileRoute reg skillName req = ReadFileRoute.unsafePath
    ∧ ∀ f, readSkillFileRoute reg skillName req ≠ ReadFileRoute.readAttempt f := by
  have hsafe : isPathSafe skill.path req = false := by
    unfold isPathSafe
    rw [Bool.eq_false_iff]
    intro hpre
    exact hesc (List.isPrefixOf_iff_prefix.mp hpre)
  refine ⟨?_, ?_⟩
  · unfold readSkillFileRoute
    rw [hres]
    simp [hsafe]
  · intro f
    unfold readSkillFileRoute
    rw [hres]
    simp [hsafe]

/-- Witness for `read_skill_file_rejects_traversal`: the request
`../../etc/passwd` against a registered skill resolves outside the skill
directory and is routed to the rejection branch. -/
theorem read_skill_file_rejects_traversal_witness :
    resolveSkill "demo" [("demo", demoSkill)] = some demoSkill
    ∧ ¬ demoSkill.path <+: resolvePath demoSkill.path ⟨false, ["..", "..", "etc", "passwd"]⟩
    ∧ readSkillFileRoute [("demo", demoSkill)] "demo" ⟨false, ["..", "..", "etc", "passwd"]⟩
        = ReadFileRoute.unsafePath :=
  ⟨by decide, by decide,
    (read_skill_file_rejects_traversal [("demo", demoSkill)] "demo"
      ⟨false, ["..", "..", "etc", "passwd"]⟩ demoSkill (by decide) (by decide)).1⟩

/-! ## Association-list helpers for the registry model -/

/-- Unfolding of `List.lookup` at a cons cell, with the Boolean key test
turned into an `if`. -/
theorem lookup_cons_eq {β : Type} (a k : String) (b : β) (l : List (String × β)) :
    ((k, b) :: l).lookup a = if a == k then some b else l.lookup a := by
  rw [List.lookup]
  cases h : a == k <;> simp [h]

/-- `List.lookup` distributes over append through `Option.or`. -/
theorem lookup_append_or {β : Type} (l₁ l₂ : List (String × β)) (a : String) :
    (l₁ ++ l₂).lookup a = (l₁.lookup a).or (l₂.lookup a) := by
  induction l₁ with
  | nil => simp [List.lookup]
  | cons p rest ih =>
    obtain ⟨k, v⟩ := p
    rw [List.cons_append, lookup_cons_eq, lookup_cons_eq]
    by_cases h : a = k
    · simp [h]
    · simp [h, ih]

/-- A successful lookup exhibits a member pair. -/
theorem mem_of_lookup_eq_some {β : Type} {l : List (String × β)} {a : String} {b : β}
    (h : l.lookup a = some b) : (a, b) ∈ l := by
  induction l with
  | nil => simp [List.lookup] at h
  | cons p rest ih =>
    obtain ⟨k, v⟩ := p
    rw [lookup_cons_eq] at h
    by_cases hk : a = k
    · rw [if_pos (by simp [hk])] at h
      obtain rfl := Option.some.inj h
      rw [hk]
      exact List.mem_cons_self _ _
    · rw [if_neg (by simp [hk])] at h
      exact List.mem_cons_of_mem _ (ih h)

/-- A lookup fails exactly when the key is absent. -/
theorem lookup_eq_none_iff_keys {β : Type} (l : List (String × β)) (a : String) :
    l.lookup a = none ↔ a ∉ l.map Prod.fst := by
  induction l with
  | nil => simp [List.lookup]
  | cons p rest ih =>
    obtain ⟨k, v⟩ := p
    rw [lookup_cons_eq]
    by_cases hk : a = k
    · simp [hk]
    · simp [hk, ih]

/-- Under distinct keys, membership determines the lookup result. -/
theorem lookup_eq_some_of_mem_nodup {β : Type} {l : List (String × β)} {a : String} {b : β}
    (hnd : (l.map Prod.fst).Nodup) (hmem : (a, b) ∈ l) : l.lookup a = some b := by
  induction l with
  | nil => simp at hmem
  | cons p rest ih =>
    obtain ⟨k, v⟩ := p
    rw [List.map_cons, List.nodup_cons] at hnd
    rcases List.mem_cons.mp hmem with heq | hrest
    · obtain ⟨rfl, rfl⟩ := Prod.mk.injEq .. ▸ heq
      rw [lookup_cons_eq, if_pos (by simp)]
    · have ha : a ∈ rest.map Prod.fst := List.mem_map.mpr ⟨(a, b), hrest, rfl⟩
      have hak : a ≠ k := fun h => hnd.1 (h ▸ ha)
      rw [lookup_cons_eq, if_neg (by simp [hak])]
      exact ih hnd.2 hrest

/-! ## C2: first-found-wins aggregation -/

/-- The lookup in a registry built by folding `insertSkill` finds what the
initial registry had, or else the first skill of the folded list with the
requested name. -/
theorem foldl_insertSkill_lookup (l : List SkillMetadata)
    (reg : List (String × SkillMetadata)) (n : String) :
    (l.foldl insertSkill reg).lookup n = (reg.lookup n).or (l.find? fun s => s.name == n) := by
  induction l generalizing reg with
  | nil => simp [List.find?]
  | cons s rest ih =>
    rw [List.foldl_cons, ih, List.find?]
    cases hb : (s.name == n) with
    | true =>
      have hsn : s.name = n := by simpa using hb
      unfold insertSkill
      cases hreg : reg.lookup s.name with
      | some v =>
        have h1 : reg.lookup n = some v := hsn ▸ hreg
        simp [h1]
      | none =>
        have h1 : reg.lookup n = none := hsn ▸ hreg
        rw [lookup_append_or, h1, lookup_cons_eq, if_pos (by simp [hsn])]
        simp
    | false =>
      have hne : ¬ n = s.name := by
        intro h
        simp [h] at hb
      unfold insertSkill
      cases hreg : reg.lookup s.name with
      | some v => rfl
      | none =>
        rw [lookup_append_or, lookup_cons_eq, if_neg (by simp [hne]), List.lookup]
        simp

/-- Folding `insertSkill` preserves distinctness of the registry keys. -/
theorem foldl_insertSkill_keys_nodup (l : List SkillMetadata)
    (reg : List (String × SkillMetadata)) (h : (reg.map Prod.fst).Nodup) :
    ((l.foldl insertSkill reg).map Prod.fst).Nodup := by
  induction l generalizing reg with
  | nil => exact h
  | cons s rest ih =>
    rw [List.foldl_cons]
    apply ih
    unfold insertSkill
    cases hreg : reg.lookup s.name with
    | some v => exact h
    | none =>
      rw [List.map_append]
      rw [List.nodup_append]
      refine ⟨h, by simp, ?_⟩
      intro a ha hb
      simp at hb
      subst hb
      exact (lookup_eq_none_iff_keys reg s.name).mp hreg ha

/-- Folding `insertSkill` preserves the invariant that each key equals the
name of the stored skill. -/
theorem foldl_insertSkill_keys_eq_names (l : List SkillMetadata)
    (reg : List (String × SkillMetadata)) (h : ∀ p ∈ reg, p.1 = p.2.name) :
    ∀ p ∈ l.foldl insertSkill reg, p.1 = p.2.name := by
  induction l generalizing reg with
  | nil => exact h
  | cons s rest ih =>
    rw [List.foldl_cons]
    apply ih
    unfold insertSkill
    cases hreg : reg.lookup s.name with
    | some v => exact h
    | none =>
      intro p hp
      rcases List.mem_append.mp hp with hl | hr
      · exact h p hl
      · simp at hr
        rw [hr]

/-- C2: the registry built by `discoverAllSkills` keys each skill by its
name with no two entries sharing a name, and maps every name to the first
successfully parsed skill bearing it in priority order — so of two skills
with equal name from different roots, the one from the earlier root is the
only one that can appear, and the later duplicate is dropped without
error.  The fourth conjunct states that every registry entry is that
first-found skill. -/
theorem discoverAllSkills_first_found_wins (rootsSkills : List (List SkillMetadata))
    (n : String) :
    ((discoverAllSkills rootsSkills).map Prod.fst).Nodup
    ∧ (∀ p ∈ discoverAllSkills rootsSkills, p.1 = p.2.name)
    ∧ (discoverAllSkills rootsSkills).lookup n
        = rootsSkills.flatten.find? (fun s => s.name == n)
    ∧ (∀ s, (n, s) ∈ discoverAllSkills rootsSkills →
        rootsSkills.flatten.find? (fun s => s.name == n) = some s) := by
  have hlook : (discoverAllSkills rootsSkills).lookup n
      = rootsSkills.flatten.find? (fun s => s.name == n) := by
    rw [discoverAllSkills, foldl_insertSkill_lookup]
    simp [List.lookup]
  refine ⟨foldl_insertSkill_keys_nodup _ _ (by simp),
          foldl_insertSkill_keys_eq_names _ _ (by simp), hlook, ?_⟩
  intro s hmem
  rw [← hlook]
  exact lookup_eq_some_of_mem_nodup (foldl_insertSkill_keys_nodup _ _ (by simp)) hmem

/-! ## C6: namespaced resolution -/

/-- A colon-free list is returned whole by `breakAtColon`. -/
theorem breakAtColon_no_colon (cs : List Char) (h : ':' ∉ cs) :
    breakAtColon cs = (cs, none) := by
  induction cs with
  | nil => rfl
  | cons c rest ih =>
    have hc : ¬ c = ':' := fun hce => h (hce ▸ List.mem_cons_self c rest)
    rw [breakAtColon, if_neg hc, ih (fun hm => h (List.mem_cons_of_mem c hm))]

/-- `breakAtColon` splits at the first colon. -/
theorem breakAtColon_split (pre post : List Char) (h : ':' ∉ pre) :
    breakAtColon (pre ++ ':' :: post) = (pre, some post) := by
  induction pre with
  | nil => simp [breakAtColon]
  | cons c rest ih =>
    have hc : ¬ c = ':' := fun hce => h (hce ▸ List.mem_cons_self c rest)
    rw [List.cons_append, breakAtColon, if_neg hc,
      ih (fun hm => h (List.mem_cons_of_mem c hm))]

/-- In a registry with distinct keys that each equal the stored name, the
value-iterating search of `resolveSkill` finds exactly the entry that a key
lookup finds, for any additional test `Q` that entry passes. -/
theorem find?_values_eq_of_lookup {reg : List (String × SkillMetadata)} {n : String}
    {s : SkillMetadata} (Q : SkillMetadata → Bool)
    (hnd : (reg.map Prod.fst).Nodup) (hkeys : ∀ p ∈ reg, p.1 = p.2.name)
    (hl : reg.lookup n = some s) (hQ : Q s = true) :
    (reg.map Prod.snd).find? (fun v => v.name == n && Q v) = some s := by
  induction reg with
  | nil => simp [List.lookup] at hl
  | cons p rest ih =>
    obtain ⟨k, v⟩ := p
    have hkv : k = v.name := hkeys (k, v) (List.mem_cons_self _ _)
    rw [List.map_cons, List.nodup_cons] at hnd
    rw [lookup_cons_eq] at hl
    rw [List.map_cons]
    by_cases hk : n = k
    · rw [if_pos (by simp [hk])] at hl
      obtain rfl := Option.some.inj hl
      exact List.find?_cons_of_pos _ (by simp [hQ, ← hkv, hk])
    · rw [if_neg (by simp [hk])] at hl
      have hvn : ¬ (v.name == n && Q v) = true := by
        simp [← hkv]
        intro he
        exact absurd he.symm hk
      have hgoal : List.find? (fun v => v.name == n && Q v) (v :: List.map Prod.snd rest)
          = some s := by
        rw [@List.find?_cons_of_neg _ (fun v => v.name == n && Q v) v
          (List.map Prod.snd rest) hvn]
        exact ih hnd.2 (fun p hp => hkeys p (List.mem_cons_of_mem _ hp)) hl
      exact hgoal

/-- C6: in the registry built by `discoverAllSkills`, `resolve(name)` and
`resolve(tier:name)` return the same record when the tier is the label of
the registry entry for that name, and `resolve(ns:name)` returns `none`
when no registry entry has that name together with that tier label or that
declared namespace. -/
theorem resolveSkill_tier_and_namespace (rootsSkills : List (List SkillMetadata))
    (t n : String) (ht : ':' ∉ t.data) (hn : ':' ∉ n.data) :
    (∀ s, (discoverAllSkills rootsSkills).lookup n = some s → s.label = t →
        resolveSkill n (discoverAllSkills rootsSkills) = some s
        ∧ resolveSkill (t ++ ":" ++ n) (discoverAllSkills rootsSkills) = some s)
    ∧ ((∀ s, s ∈ (discoverAllSkills rootsSkills).map Prod.snd →
          ¬ (s.name = n ∧ (s.label = t ∨ s.nspace = some t))) →
        resolveSkill (t ++ ":" ++ n) (discoverAllSkills rootsSkills) = none) := by
  have hdata : (t ++ ":" ++ n).data = t.data ++ ':' :: n.data := by
    rw [String.data_append, String.data_append]
    simp
  constructor
  · intro s hlup hlabel
    constructor
    · unfold resolveSkill
      rw [breakAtColon_no_colon n.data hn]
      exact hlup
    · unfold resolveSkill
      rw [hdata, breakAtColon_split t.data n.data ht]
      simp only [breakAtColon_no_colon n.data hn]
      exact find?_values_eq_of_lookup (fun v => v.label == t || v.nspace == some t)
        (foldl_insertSkill_keys_nodup _ _ (by simp))
        (foldl_insertSkill_keys_eq_names _ _ (by simp)) hlup (by simp [hlabel])
  · intro hnone
    unfold resolveSkill
    rw [hdata, breakAtColon_split t.data n.data ht]
    simp only [breakAtColon_no_colon n.data hn]
    apply List.find?_eq_none.mpr
    intro v hv
    have := hnone v hv
    simp only [Bool.and_eq_true, Bool.or_eq_true, beq_iff_eq, Option.some.injEq] at *
    intro hcon
    exact this ⟨hcon.1, by
      rcases hcon.2 with h1 | h1
      · exact Or.inl h1
      · exact Or.inr (by simpa using h1)⟩

/-- Witness for `resolveSkill_tier_and_namespace`: a one-skill registry
resolved by bare name, by winning tier, and by a tier with no entry. -/
theorem resolveSkill_tier_and_namespace_witness :
    ((discoverAllSkills [[demoSkill]]).lookup "demo" = some demoSkill)
    ∧ resolveSkill "demo" (discoverAllSkills [[demoSkill]]) = some demoSkill
    ∧ resolveSkill "project:demo" (discoverAllSkills [[demoSkill]]) = some demoSkill := by
  have h := (resolveSkill_tier_and_namespace [[demoSkill]] "project" "demo"
    (by decide) (by decide)).1 demoSkill (by decide) (by decide)
  exact ⟨by decide, h.1, by
    have := h.2
    simpa using this⟩

/-! ## C10: a manifest with an empty body is rejected -/

/-- An infix of a list is an infix of the list with one element in front. -/
theorem infix_cons_extend {l₁ l₂ : List Char} (a : Char) (h : l₁ <:+: l₂) :
    l₁ <:+: a :: l₂ :=
  List.IsInfix.trans h (List.infix_cons_iff.mpr (Or.inr (List.infix_refl l₂)))

/-- When the separator occurs nowhere in the list, `splitFirst` fails. -/
theorem splitFirst_eq_none (sep l : List Char) (h : ¬ sep <:+: l) :
    splitFirst sep l = none := by
  induction l with
  | nil => rfl
  | cons c rest ih =>
    rw [splitFirst]
    rw [if_neg (fun hpre => h ((List.isPrefixOf_iff_prefix.mp hpre).isInfix))]
    rw [ih (fun hi => h (infix_cons_extend c hi))]

/-- When the separator occurs nowhere before its final occurrence —
no occurrence inside `pre ++ sep.dropLast` — `splitFirst` splits exactly at
the end. -/
theorem splitFirst_append_sep (sep pre : List Char) (hsep : sep ≠ [])
    (h : ¬ sep <:+: (pre ++ sep.dropLast)) :
    splitFirst sep (pre ++ sep) = some (pre, []) := by
  induction pre with
  | nil =>
    rw [List.nil_append]
    cases hs : sep with
    | nil => exact absurd hs hsep
    | cons c cs =>
      rw [splitFirst, if_pos (List.isPrefixOf_iff_prefix.mpr (List.prefix_refl _))]
      simp
  | cons a pre' ih =>
    have hnotpre : ¬ sep.isPrefixOf (a :: (pre' ++ sep)) = true := by
      intro hpre
      obtain ⟨u, hu⟩ := List.isPrefixOf_iff_prefix.mp hpre
      have hune : u ≠ [] := by
        intro h0
        subst h0
        have := congrArg List.length hu
        simp at this
        omega
      have hdl : sep ++ u.dropLast = a :: (pre' ++ sep.dropLast) := by
        have h1 : (sep ++ u).dropLast = sep ++ u.dropLast :=
          List.dropLast_append_of_ne_nil sep hune
        have h2 : (([a] ++ pre') ++ sep).dropLast = ([a] ++ pre') ++ sep.dropLast :=
          List.dropLast_append_of_ne_nil _ hsep
        rw [← h1, hu]
        simpa using h2
      have hp : sep <+: a :: (pre' ++ sep.dropLast) := ⟨u.dropLast, hdl⟩
      exact h (by
        rw [List.cons_append]
        exact hp.isInfix)
    have hsub : ¬ sep <:+: (pre' ++ sep.dropLast) := by
      intro hi
      exact h (by
        rw [List.cons_append]
        exact infix_cons_extend a hi)
    rw [List.cons_append, splitFirst, if_neg hnotpre, ih hsub]

/-- The frontmatter regex applied to a manifest whose body is empty but for
the final newline: the match succeeds with an empty second group. -/
theorem extractFrontmatter_empty_body (fm : String)
    (hdelim : ¬ ("\n---\n".data) <:+: (fm.data ++ "\n---".data)) :
    extractFrontmatter ("---\n" ++ fm ++ "\n---\n") = some (fm, "") := by
  have h4 : "---\n".data = ['-', '-', '-', '\n'] := by decide
  have hdlast : ("\n---\n".data).dropLast = "\n---".data := by decide
  unfold extractFrontmatter
  rw [String.data_append, String.data_append, List.append_assoc, h4]
  rw [if_pos (List.isPrefixOf_iff_prefix.mpr ⟨fm.data ++ "\n---\n".data, rfl⟩)]
  rw [show ∀ X : List Char, (['-', '-', '-', '\n'] ++ X).drop 4 = X from fun X => rfl]
  rw [splitFirst_append_sep ("\n---\n".data) fm.data (by decide) (hdlast ▸ hdelim)]

/-- The frontmatter regex applied to a manifest that ends at the closing
`---` with no final newline: the delimiter `\n---\n` never occurs,
so the regex does not match at all. -/
theorem extractFrontmatter_no_final_newline (fm : String)
    (hdelim : ¬ ("\n---\n".data) <:+: (fm.data ++ "\n---".data)) :
    extractFrontmatter ("---\n" ++ fm ++ "\n---") = none := by
  have h4 : "---\n".data = ['-', '-', '-', '\n'] := by decide
  unfold extractFrontmatter
  rw [String.data_append, String.data_append, List.append_assoc, h4]
  rw [if_pos (List.isPrefixOf_iff_prefix.mpr ⟨fm.data ++ "\n---".data, rfl⟩)]
  rw [show ∀ X : List Char, (['-', '-', '-', '\n'] ++ X).drop 4 = X from fun X => rfl]
  rw [splitFirst_eq_none ("\n---\n".data) _ hdelim]

/-- C10: a manifest consisting of a well-formed frontmatter block followed
by an empty body — nothing, or nothing but the final newline, after the
closing delimiter line — is rejected by the frontmatter gate of
`parseSkillFile` (`!frontmatterMatch[2]` for the empty second group, no
regex match at all without the final newline), so `parseSkillFile` returns
`null` and the skill is silently omitted from the registry. -/
theorem empty_body_manifest_rejected (fm : String) (hfm : fm.data ≠ [])
    (hdelim : ¬ ("\n---\n".data) <:+: (fm.data ++ "\n---".data)) :
    parseSkillFileGate ("---\n" ++ fm ++ "\n---\n") = none
    ∧ parseSkillFileGate ("---\n" ++ fm ++ "\n---") = none := by
  have h4 : "---\n".data = ['-', '-', '-', '\n'] := by decide
  constructor
  · unfold parseSkillFileGate
    rw [extractFrontmatter_empty_body fm hdelim]
    have hne : ("---\n" ++ fm ++ "\n---\n").data.isEmpty = false := by
      rw [String.data_append, String.data_append, List.append_assoc, h4]
      rfl
    rw [hne]
    simp
  · unfold parseSkillFileGate
    rw [extractFrontmatter_no_final_newline fm hdelim]
    have hne : ("---\n" ++ fm ++ "\n---").data.isEmpty = false := by
      rw [String.data_append, String.data_append, List.append_assoc, h4]
      rfl
    rw [hne]
    rfl

/-- Witness for `empty_body_manifest_rejected`: a manifest with valid-looking
metadata and no body is rejected at the frontmatter gate. -/
theorem empty_body_manifest_rejected_witness :
    ("name: demo\ndescription: a demo" : String).data ≠ []
    ∧ parseSkillFileGate ("---\n" ++ "name: demo\ndescription: a demo" ++ "\n---\n") = none
    ∧ parseSkillFileGate ("---\n" ++ "name: demo\ndescription: a demo" ++ "\n---") = none := by
  have h := empty_body_manifest_rejected "name: demo\ndescription: a demo" (by decide) (by decide)
  exact ⟨by decide, h.1, h.2⟩

/-! ## C3: the scan stops at the first manifest -/

/-- Distinct sibling names at the top level of a well-formed entry list. -/
theorem wf_head_notin {nm : String} {sub : DirTree} {rest : List (String × DirTree)}
    (h : wfChildren ((nm, sub) :: rest) = true) : nm ∉ rest.map Prod.fst := by
  cases sub with
  | node m cs =>
    rw [wfChildren] at h
    simp only [Bool.and_eq_true, Bool.not_eq_true'] at h
    intro hmem
    rw [List.contains_eq_any_beq] at h
    have := h.1.1
    rw [List.any_eq_false] at this
    exact absurd (by simp : (nm == nm) = true) (this nm hmem)

/-- Well-formedness restricted to the tail of an entry list. -/
theorem wf_rest {nm : String} {sub : DirTree} {rest : List (String × DirTree)}
    (h : wfChildren ((nm, sub) :: rest) = true) : wfChildren rest = true := by
  cases sub with
  | node m cs =>
    rw [wfChildren] at h
    simp only [Bool.and_eq_true] at h
    exact h.2

/-- Well-formedness propagates to every subtree in the list. -/
theorem wf_sub {entries : List (String × DirTree)} (h : wfChildren entries = true)
    {nm : String} {sub : DirTree} (hmem : (nm, sub) ∈ entries) :
    wfChildren sub.children = true := by
  induction entries with
  | nil => simp at hmem
  | cons p rest ih =>
    obtain ⟨k, s⟩ := p
    rcases List.mem_cons.mp hmem with heq | hr
    · cases heq
      cases sub with
      | node m cs =>
        rw [wfChildren] at h
        simp only [Bool.and_eq_true] at h
        exact h.1.2
    · exact ih (wf_rest h) hr

/-- Well-formed entry lists have distinct keys. -/
theorem wf_keys_nodup {entries : List (String × DirTree)} (h : wfChildren entries = true) :
    (entries.map Prod.fst).Nodup := by
  induction entries with
  | nil => simp
  | cons p rest ih =>
    obtain ⟨nm, sub⟩ := p
    rw [List.map_cons, List.nodup_cons]
    exact ⟨wf_head_notin h, ih (wf_rest h)⟩

/-- A reported path is never empty. -/
theorem skillAt_ne_nil {entries : List (String × DirTree)} {p : List String}
    (h : SkillAt entries p) : p ≠ [] := by
  cases h <;> simp

/-- The head of a reported path names one of the entries. -/
theorem skillAt_head_mem {entries : List (String × DirTree)} {nm : String} {p : List String}
    (h : SkillAt entries (nm :: p)) : ∃ sub, (nm, sub) ∈ entries := by
  cases h with
  | here hm _ => exact ⟨_, hm⟩
  | deeper hm _ _ => exact ⟨_, hm⟩

/-- Reported paths survive adding entries in front. -/
theorem skillAt_cons_weaken {entries : List (String × DirTree)} {q : List String}
    (pr : String × DirTree) (h : SkillAt entries q) : SkillAt (pr :: entries) q := by
  cases h with
  | here hm hman => exact SkillAt.here (List.mem_cons_of_mem _ hm) hman
  | deeper hm hman hs => exact SkillAt.deeper (List.mem_cons_of_mem _ hm) hman hs

/-- Equation lemma: the scanner on an empty directory listing. -/
theorem scanChildren_nil (r : Nat) (rel : List String) : scanChildren r rel [] = [] := by
  rw [scanChildren.eq_def]

/-- Equation lemma: the scanner on a directory listing with a first entry. -/
theorem scanChildren_cons (r : Nat) (rel : List String) (nm : String) (sub : DirTree)
    (rest : List (String × DirTree)) :
    scanChildren r rel ((nm, sub) :: rest) =
      (if sub.hasManifest then [rel ++ [nm]]
       else
         match r with
         | 0 => []
         | r' + 1 => scanChildren r' (rel ++ [nm]) sub.children)
      ++ scanChildren r rel rest := by
  rw [scanChildren.eq_def]

/-- Soundness of the scanner: every reported path extends the relative
prefix by a `SkillAt` chain whose length is bounded by the descent
budget. -/
theorem scanChildren_sound (r : Nat) (rel : List String) (entries : List (String × DirTree)) :
    ∀ p ∈ scanChildren r rel entries,
      ∃ suf, p = rel ++ suf ∧ SkillAt entries suf ∧ suf.length ≤ r + 1 := by
  induction r, rel, entries using scanChildren.induct with
  | case1 r rel =>
    intro p hp
    rw [scanChildren_nil] at hp
    simp at hp
  | case2 r rel nm sub rest ihsub ihrest =>
    intro p hp
    rw [scanChildren_cons] at hp
    rcases List.mem_append.mp hp with hh | hr
    · cases hman : sub.hasManifest with
      | true =>
        rw [if_pos hman] at hh
        simp only [List.mem_singleton] at hh
        subst hh
        exact ⟨[nm], rfl, SkillAt.here (List.mem_cons_self _ _) hman, by simp⟩
      | false =>
        rw [if_neg (by simp [hman])] at hh
        cases r with
        | zero => simp at hh
        | succ r' =>
          obtain ⟨suf', heq, hsk, hlen⟩ := ihsub p hh
          refine ⟨nm :: suf', ?_, SkillAt.deeper (List.mem_cons_self _ _) hman hsk, ?_⟩
          · rw [heq, List.append_assoc]
            rfl
          · simp only [List.length_cons]
            omega
    · obtain ⟨suf, heq, hsk, hlen⟩ := ihrest p hr
      exact ⟨suf, heq, skillAt_cons_weaken _ hsk, hlen⟩

/-- A list counts a target zero times when every member differs from it. -/
theorem count_eq_zero_of_shape {tgt : List String} {l : List (List String)}
    (h : ∀ x ∈ l, x ≠ tgt) : l.count tgt = 0 :=
  List.count_eq_zero.mpr (fun hmem => (h tgt hmem) rfl)

/-- Paths reported from inside a subdirectory `nm` never equal a path whose
next component differs from `nm`. -/
theorem scan_sub_ne (r : Nat) (rel : List String) (nm nm₀ : String) (sub : DirTree)
    (q : List String) (hne : nm₀ ≠ nm) :
    ∀ x ∈ scanChildren r (rel ++ [nm]) sub.children, x ≠ rel ++ nm₀ :: q := by
  intro x hx heq
  obtain ⟨suf, hsx, _, _⟩ := scanChildren_sound r (rel ++ [nm]) sub.children x hx
  rw [hsx, List.append_assoc] at heq
  have h2 : nm :: suf = nm₀ :: q := by
    have := List.append_cancel_left heq
    simpa using this
  exact hne (List.cons.injEq .. ▸ h2).1.symm

/-- Paths reported from the remaining entries never start with the name of
an entry that is absent from them. -/
theorem scan_rest_zero_head (r : Nat) (rel : List String) (nm : String)
    (rest : List (String × DirTree)) (q : List String)
    (hnotin : nm ∉ rest.map Prod.fst) :
    ∀ x ∈ scanChildren r rel rest, x ≠ rel ++ nm :: q := by
  intro x hx heq
  obtain ⟨suf, hsx, hsk, _⟩ := scanChildren_sound r rel rest x hx
  rw [hsx] at heq
  have hsuf : suf = nm :: q := List.append_cancel_left heq
  subst hsuf
  obtain ⟨sub', hmem⟩ := skillAt_head_mem hsk
  exact hnotin (List.mem_map.mpr ⟨(nm, sub'), hmem, rfl⟩)

/-- Completeness and uniqueness of the scanner: a `SkillAt` chain within
the depth budget is reported exactly once (in a well-formed tree). -/
theorem scanChildren_count (r : Nat) (rel : List String)
    (entries : List (String × DirTree)) :
    ∀ suf, wfChildren entries = true → SkillAt entries suf → suf.length ≤ r + 1 →
      (scanChildren r rel entries).count (rel ++ suf) = 1 := by
  induction r, rel, entries using scanChildren.induct with
  | case1 r rel =>
    intro suf _ hsk _
    cases hsk with
    | here hm _ => exact absurd hm (List.not_mem_nil _)
    | deeper hm _ _ => exact absurd hm (List.not_mem_nil _)
  | case2 r rel nm sub rest ihsub ihrest =>
    intro suf hwf hsk hlen
    have hnotin : nm ∉ rest.map Prod.fst := wf_head_notin hwf
    have hwrest : wfChildren rest = true := wf_rest hwf
    rw [scanChildren_cons, List.count_append]
    cases hman : sub.hasManifest with
    | true =>
      rw [if_pos rfl]
      cases hsk with
      | @here _ nm₀ sub₀ hm hman' =>
        rcases List.mem_cons.mp hm with heq | hmem
        · injection heq with h1 h2
          subst h1
          subst h2
          have h0 : (scanChildren r rel rest).count (rel ++ [nm₀]) = 0 :=
            count_eq_zero_of_shape (scan_rest_zero_head r rel nm₀ rest [] hnotin)
          rw [h0]
          simp
        · have hne : nm₀ ≠ nm := fun he =>
            hnotin (he ▸ List.mem_map.mpr ⟨(nm₀, sub₀), hmem, rfl⟩)
          have h0 : List.count (rel ++ [nm₀]) [rel ++ [nm]] = 0 :=
            List.count_eq_zero.mpr (by
              simp only [List.mem_singleton]
              intro heq
              have h3 := List.append_cancel_left heq
              exact hne (by simpa using h3))
          rw [h0, ihrest [nm₀] hwrest (SkillAt.here hmem hman') hlen]
      | @deeper _ nm₀ sub₀ p hm hman' hsk' =>
        rcases List.mem_cons.mp hm with heq | hmem
        · injection heq with h1 h2
          subst h1
          subst h2
          simp [hman] at hman'
        · have hne : nm₀ ≠ nm := fun he =>
            hnotin (he ▸ List.mem_map.mpr ⟨(nm₀, sub₀), hmem, rfl⟩)
          have h0 : List.count (rel ++ nm₀ :: p) [rel ++ [nm]] = 0 :=
            List.count_eq_zero.mpr (by
              simp only [List.mem_singleton]
              intro heq
              have h3 := List.append_cancel_left heq
              have h4 : nm₀ = nm ∧ p = [] := by simpa using h3
              exact hne h4.1)
          rw [h0, ihrest (nm₀ :: p) hwrest (SkillAt.deeper hmem hman' hsk') hlen]
    | false =>
      rw [if_neg (by simp)]
      cases r with
      | zero =>
        cases hsk with
        | @here _ nm₀ sub₀ hm hman' =>
          rcases List.mem_cons.mp hm with heq | hmem
          · injection heq with h1 h2
            subst h1
            subst h2
            simp [hman] at hman'
          · simp only [List.count_nil]
            rw [ihrest [nm₀] hwrest (SkillAt.here hmem hman') hlen]
        | @deeper _ nm₀ sub₀ p hm hman' hsk' =>
          rcases List.mem_cons.mp hm with heq | hmem
          · injection heq with h1 h2
            subst h1
            subst h2
            have hp : p = [] := by
              rw [List.length_cons] at hlen
              exact List.length_eq_zero.mp (by omega)
            exact absurd hp (skillAt_ne_nil hsk')
          · simp only [List.count_nil]
            rw [ihrest (nm₀ :: p) hwrest (SkillAt.deeper hmem hman' hsk') hlen]
      | succ r' =>
        cases hsk with
        | @here _ nm₀ sub₀ hm hman' =>
          rcases List.mem_cons.mp hm with heq | hmem
          · injection heq with h1 h2
            subst h1
            subst h2
            simp [hman] at hman'
          · have hne : nm₀ ≠ nm := fun he =>
              hnotin (he ▸ List.mem_map.mpr ⟨(nm₀, sub₀), hmem, rfl⟩)
            have h0 : (scanChildren r' (rel ++ [nm]) sub.children).count (rel ++ [nm₀]) = 0 :=
              count_eq_zero_of_shape (scan_sub_ne r' rel nm nm₀ sub [] hne)
            rw [h0, ihrest [nm₀] hwrest (SkillAt.here hmem hman') hlen]
        | @deeper _ nm₀ sub₀ p hm hman' hsk' =>
          rcases List.mem_cons.mp hm with heq | hmem
          · injection heq with h1 h2
            subst h1
            subst h2
            have hwsub : wfChildren sub₀.children = true :=
              wf_sub hwf (List.mem_cons_self _ _)
            have hlen' : p.length ≤ r' + 1 := by
              rw [List.length_cons] at hlen
              omega
            have h1 : (scanChildren r' (rel ++ [nm₀]) sub₀.children).count
                ((rel ++ [nm₀]) ++ p) = 1 := ihsub p hwsub hsk' hlen'
            have htgt : (rel ++ [nm₀]) ++ p = rel ++ nm₀ :: p := by
              rw [List.append_assoc]
              rfl
            rw [htgt] at h1
            have h0 : (scanChildren (r' + 1) rel rest).count (rel ++ nm₀ :: p) = 0 :=
              count_eq_zero_of_shape (scan_rest_zero_head (r' + 1) rel nm₀ rest p hnotin)
            rw [h1, h0]
          · have hne : nm₀ ≠ nm := fun he =>
              hnotin (he ▸ List.mem_map.mpr ⟨(nm₀, sub₀), hmem, rfl⟩)
            have h0 : (scanChildren r' (rel ++ [nm]) sub.children).count (rel ++ nm₀ :: p) = 0 :=
              count_eq_zero_of_shape (scan_sub_ne r' rel nm nm₀ sub p hne)
            rw [h0, ihrest (nm₀ :: p) hwrest (SkillAt.deeper hmem hman' hsk') hlen]

/-- Stepping `manifestAtPath` into the child a lookup finds. -/
theorem manifestAtPath_cons_of_lookup {t : DirTree} {nm : String} {sub : DirTree}
    (h : t.children.lookup nm = some sub) (q : List String) :
    manifestAtPath t (nm :: q) = manifestAtPath sub q := by
  unfold manifestAtPath
  have hg : getAt t (nm :: q) = getAt sub q := by
    simp only [getAt]
    rw [h]
  rw [hg]

/-- In a well-formed tree, the reported-skill chains are exactly the
non-empty paths whose final directory carries a manifest and whose proper
non-empty prefixes all exist and carry none. -/
theorem skillAt_iff_manifest (p : List String) : ∀ (t : DirTree),
    wfChildren t.children = true →
    (SkillAt t.children p ↔
      (p ≠ [] ∧ manifestAtPath t p = some true
        ∧ ∀ q, q <+: p → q ≠ [] → q ≠ p → manifestAtPath t q = some false)) := by
  induction p with
  | nil =>
    intro t hwf
    constructor
    · intro hsk
      exact absurd rfl (skillAt_ne_nil hsk)
    · rintro ⟨hne, _, _⟩
      exact absurd rfl hne
  | cons nm p' ih =>
    intro t hwf
    constructor
    · intro hsk
      cases hsk with
      | @here _ _ sub hm hman =>
        have hlook : t.children.lookup nm = some sub :=
          lookup_eq_some_of_mem_nodup (wf_keys_nodup hwf) hm
        refine ⟨by simp, ?_, ?_⟩
        · rw [manifestAtPath_cons_of_lookup hlook]
          unfold manifestAtPath getAt
          simp [hman]
        · intro q hq hqne hqp
          exfalso
          cases q with
          | nil => exact hqne rfl
          | cons a q' =>
            rw [List.cons_prefix_cons] at hq
            obtain ⟨rfl, hq'⟩ := hq
            have hqe : q' = [] := List.prefix_nil.mp hq'
            subst hqe
            exact hqp rfl
      | @deeper _ _ sub _ hm hman hsub =>
        have hlook : t.children.lookup nm = some sub :=
          lookup_eq_some_of_mem_nodup (wf_keys_nodup hwf) hm
        have hwsub : wfChildren sub.children = true := wf_sub hwf hm
        obtain ⟨hne', hman', hpref'⟩ := (ih sub hwsub).mp hsub
        refine ⟨by simp, ?_, ?_⟩
        · rw [manifestAtPath_cons_of_lookup hlook]
          exact hman'
        · intro q hq hqne hqp
          cases q with
          | nil => exact absurd rfl hqne
          | cons a q' =>
            rw [List.cons_prefix_cons] at hq
            obtain ⟨rfl, hq'⟩ := hq
            rw [manifestAtPath_cons_of_lookup hlook]
            by_cases hq'e : q' = []
            · subst hq'e
              unfold manifestAtPath getAt
              simp [hman]
            · have hq'p : q' ≠ p' := fun he => hqp (by rw [he])
              exact hpref' q' hq' hq'e hq'p
    · rintro ⟨hne, hman, hpref⟩
      cases hlook : t.children.lookup nm with
      | none =>
        exfalso
        unfold manifestAtPath at hman
        simp only [getAt] at hman
        rw [hlook] at hman
        simp at hman
      | some sub =>
        have hmem : (nm, sub) ∈ t.children := mem_of_lookup_eq_some hlook
        have hwsub : wfChildren sub.children = true := wf_sub hwf hmem
        rw [manifestAtPath_cons_of_lookup hlook] at hman
        cases hp' : p' with
        | nil =>
          subst hp'
          have hms : sub.hasManifest = true := by
            unfold manifestAtPath getAt at hman
            simpa using hman
          exact SkillAt.here hmem hms
        | cons b p'' =>
          subst hp'
          have hmansub : sub.hasManifest = false := by
            have hx := hpref [nm] (List.cons_prefix_cons.mpr ⟨rfl, List.nil_prefix⟩)
              (by simp) (by simp)
            rw [manifestAtPath_cons_of_lookup hlook] at hx
            unfold manifestAtPath getAt at hx
            simpa using hx
          have hsub : SkillAt sub.children (b :: p'') := by
            apply (ih sub hwsub).mpr
            refine ⟨by simp, hman, ?_⟩
            intro q' hq' hq'ne hq'p
            have hx := hpref (nm :: q') (List.cons_prefix_cons.mpr ⟨rfl, hq'⟩) (by simp)
              (fun he => hq'p (by injection he))
            rw [manifestAtPath_cons_of_lookup hlook] at hx
            exact hx
          exact SkillAt.deeper hmem hmansub hsub

/-- C3: for every root and depth bound, each directory that directly
contains a manifest and is reached by the scan contributes exactly one
result; every reported path ends at a manifest directory and none of its
proper ancestors carries one — so no descendant of a manifest directory is
ever reported; reported paths respect the depth bound (a path of `k`
components is found at recursion depth `k - 1 ≤ maxDepth`); and a
non-existent or unreadable root yields the empty result. -/
theorem findSkillsRecursive_manifest_stops_descent (t : DirTree) (maxDepth : Nat)
    (hwf : wfChildren t.children = true) :
    (∀ p ∈ findSkillsRecursive (some t) maxDepth,
        manifestAtPath t p = some true
        ∧ (∀ q, q <+: p → q ≠ [] → q ≠ p → manifestAtPath t q = some false)
        ∧ p.length ≤ maxDepth + 1)
    ∧ (∀ p, p ≠ [] → manifestAtPath t p = some true →
        (∀ q, q <+: p → q ≠ [] → q ≠ p → manifestAtPath t q = some false) →
        p.length ≤ maxDepth + 1 →
        (findSkillsRecursive (some t) maxDepth).count p = 1)
    ∧ findSkillsRecursive none maxDepth = [] := by
  have heq : findSkillsRecursive (some t) maxDepth = scanChildren maxDepth [] t.children := by
    simp [findSkillsRecursive, scanDir]
  refine ⟨?_, ?_, rfl⟩
  · intro p hp
    rw [heq] at hp
    obtain ⟨suf, hps, hsk, hlen⟩ := scanChildren_sound maxDepth [] t.children p hp
    rw [List.nil_append] at hps
    subst hps
    obtain ⟨_, hman, hpref⟩ := (skillAt_iff_manifest p t hwf).mp hsk
    exact ⟨hman, hpref, hlen⟩
  · intro p hne hman hpref hlen
    rw [heq]
    have hsk : SkillAt t.children p := (skillAt_iff_manifest p t hwf).mpr ⟨hne, hman, hpref⟩
    have hc := scanChildren_count maxDepth [] t.children p hwf hsk hlen
    rw [List.nil_append] at hc
    exact hc

/-- Witness for `findSkillsRecursive_manifest_stops_descent` on a concrete
tree in which a manifest directory has a manifest-bearing child. -/
theorem findSkillsRecursive_manifest_stops_descent_witness :
    wfChildren demoTree.children = true
    ∧ ((∀ p ∈ findSkillsRecursive (some demoTree) 3,
        manifestAtPath demoTree p = some true
        ∧ (∀ q, q <+: p → q ≠ [] → q ≠ p → manifestAtPath demoTree q = some false)
        ∧ p.length ≤ 3 + 1)
      ∧ (∀ p, p ≠ [] → manifestAtPath demoTree p = some true →
          (∀ q, q <+: p → q ≠ [] → q ≠ p → manifestAtPath demoTree q = some false) →
          p.length ≤ 3 + 1 →
          (findSkillsRecursive (some demoTree) 3).count p = 1)
      ∧ findSkillsRecursive none 3 = []) :=
  ⟨by simp [demoTree, DirTree.children, wfChildren],
   findSkillsRecursive_manifest_stops_descent demoTree 3
    (by simp [demoTree, DirTree.children, wfChildren])⟩
